import Mathlib

/-! Shallow embedding of the duplicate-file matcher `match.py`.

Paths and file contents are byte strings, modelled as `List Nat`.  The
xxhash-64 digest function is kept abstract: the definitions are
parameterised by `H : List Nat → Nat` (the running `digest()` at a
checkpoint, a function of the bytes consumed so far) and by
`Hhex : List Nat → Nat` (the `hexdigest()` of a whole stream).  A stable
filesystem snapshot is an association list from paths to contents. -/

namespace MatchSpec

/-- Byte strings: file paths and file contents. -/
abbrev Bytes : Type := List Nat

/-- The record `_Step = namedtuple('_Step', ['iteration', 'digest', 'stepfunc', 'final'])`.
`stepfunc` identifies the stepping-function object (`0` stands for the shared
default `exponential`); `final` is the integer flag (`0` or `1`) that
`_stephash` stores in the record. -/
structure Step where
  iteration : Nat
  digest : Nat
  stepfunc : Nat
  final : Nat
deriving DecidableEq

/-- The generator `exponential(initial=1)`: it yields `initial`, then repeatedly
executes `initial *= initial` and yields the result.  `exponential initial n`
is the `n`-th value the generator yields. -/
def exponential (initial : Nat) : Nat → Nat
  | 0 => initial
  | n + 1 => exponential initial n * exponential initial n

/-- The 4096-byte blocks delivered by `iter(lambda: fileh.read(4096), b'')`. -/
def chunksOf (c : Bytes) : List Bytes :=
  if h : c = [] then [] else c.take 4096 :: chunksOf (c.drop 4096)
termination_by c.length
decreasing_by
  simp only [List.length_drop]
  exact Nat.sub_lt (List.length_pos.mpr h) (by decide)

/-- Number of 4096-byte blocks of a file with contents `c`. -/
def numBlocks (c : Bytes) : Nat := (chunksOf c).length

/-- The reading loop of `_stephash`: walk the blocks, feeding each into the
running hash; after consuming block number `it + 1`, if that count has reached
the pending step value `sched si`, emit a non-final `_Step` carrying the
pending step value and the running digest, then fetch the next step value.
Returns the emitted steps together with the step value still pending at end of
stream (stored in the final `_Step`).  `acc` is the byte prefix consumed so
far, so the running digest after feeding one more block `ch` is `H (acc ++ ch)`. -/
def stephashLoop (H : Bytes → Nat) (sched : Nat → Nat) :
    List Bytes → Bytes → Nat → Nat → List Step × Nat
  | [], _, _, si => ([], sched si)
  | ch :: rest, acc, it, si =>
    if it + 1 ≥ sched si then
      let r := stephashLoop H sched rest (acc ++ ch) (it + 1) (si + 1)
      (⟨sched si, H (acc ++ ch), 0, 0⟩ :: r.1, r.2)
    else
      stephashLoop H sched rest (acc ++ ch) (it + 1) si

/-- `_stephash(file, hash)` with the default stepping function
(`stepfunc=None`, hence `exponential`): the list of `_Step` records the
generator yields over a file with contents `c`.  The final record is always
emitted, flagged `final = 1`, and carries `hexdigest()` of the whole stream
(`Hhex c`) together with the pending step value. -/
def stephash (H Hhex : Bytes → Nat) (c : Bytes) : List Step :=
  (stephashLoop H (exponential 1) (chunksOf c) [] 0 0).1
    ++ [⟨(stephashLoop H (exponential 1) (chunksOf c) [] 0 0).2, Hhex c, 0, 1⟩]

/-- The lock-step `while True` loop of `_File.__eq__`: each round pulls the
next `_Step` from both sequences, and the `assert` statements check that the
two streams stop on the same round and agree on `stepfunc` and on
`iteration`.  The loop body performs no digest comparison.  Result: `none`
models an escaping `AssertionError`; `some (la, lb, n)` gives the last step
pulled from each sequence together with `n`, the number of steps the loop
consumed from each of the two sequences. -/
def eqLoop : List Step → List Step → Option (Step × Step × Nat)
  | a :: as, b :: bs =>
    if a.stepfunc = b.stepfunc ∧ a.iteration = b.iteration then
      match as, bs with
      | [], [] => some (a, b, 1)
      | as', bs' =>
        match eqLoop as' bs' with
        | some (x, y, n) => some (x, y, n + 1)
        | none => none
    else none
  | _, _ => none

/-- Outcomes `_File.__eq__` can have besides returning a `bool`: a
`FileNotFoundError` (a file vanished between `os.stat` and the reads), or an
`AssertionError` escaping the lock-step loop. -/
inductive EqErr
  | fnf
  | assertErr
deriving DecidableEq

/-- `_File.__eq__(self, other)`: `szA`/`szB` are the `st_size` values memoized
by `_File.__init__`; `ca`/`cb` are the byte contents still present at
comparison time (`none` means the file vanished, so the first generator pull
raises `FileNotFoundError`).  Stages in source order: memoized-size compare;
lock-step checkpoint loop (asserts only); digest compare of the two last
steps; memoized whole-stream `hexdigest` compare (`self._xxhash`, which the
full traversal of `_stepxxhash` memoized to the final step's digest, `Hhex`);
authoritative byte-for-byte compare `filecmp.cmp(..., shallow=False)`. -/
def eqFile (H Hhex : Bytes → Nat) (szA szB : Nat) (ca cb : Option Bytes) :
    Except EqErr Bool :=
  if szA ≠ szB then .ok false
  else
    match ca, cb with
    | none, _ => .error .fnf
    | some _, none => .error .fnf
    | some a, some b =>
      match eqLoop (stephash H Hhex a) (stephash H Hhex b) with
      | none => .error .assertErr
      | some (la, lb, _) =>
        if la.digest ≠ lb.digest then .ok false
        else if Hhex a ≠ Hhex b then .ok false
        else .ok (decide (a = b))

/-- The equality evaluation inside `_eq(pair)`: `FileNotFoundError` is caught
(`except FileNotFoundError: pass`), leaving the result `None`; an
`AssertionError` propagates to the caller (modelled as `.error ()`). -/
def runEq (H Hhex : Bytes → Nat) (szA szB : Nat) (ca cb : Option Bytes) :
    Except Unit (Option Bool) :=
  match eqFile H Hhex szA szB ca cb with
  | .ok b => .ok (some b)
  | .error .fnf => .ok none
  | .error .assertErr => .error ()

/-- An ordered pair from the pair stream. -/
abbrev FilePair : Type := Bytes × Bytes

/-- Python truthiness of the 2-tuple `(pair, equal)` returned by `_eq`: a
tuple is truthy exactly when it is non-empty, and this tuple always has two
components, so the test `not _eq(pair)` in the sequential branch of `_matches`
is always `False`. -/
def pyTruthyTuple (_ : FilePair × Option Bool) : Bool := true

/-- Python truthiness of `result[1]` (one of `True`, `False`, `None`) as
tested by the worker-pool branch of `_matches`. -/
def pyTruthyOpt : Option Bool → Bool
  | none => false
  | some b => b

/-- The sequential branch of `_matches` (`pool is None`): for each pair, call
`_eq(pair)` and skip the pair only when the returned value is falsy; an
escaping exception aborts the whole iteration.  `ev` is the `_eq` evaluation
of one pair. -/
def seqMatches (ev : FilePair → Except Unit (FilePair × Option Bool)) :
    List FilePair → Except Unit (List FilePair)
  | [] => .ok []
  | p :: rest =>
    match ev p with
    | .error e => .error e
    | .ok r =>
      match seqMatches ev rest with
      | .error e => .error e
      | .ok l => .ok (if pyTruthyTuple r then p :: l else l)

/-- The worker-pool branch of `_matches`: `pool.imap_unordered(_eq, pairs)`
delivers the `(pair, equal)` results in completion order (the argument list
fixes one such order); a pair is emitted only when `result[1]` is truthy. -/
def poolMatches (ev : FilePair → Except Unit (FilePair × Option Bool)) :
    List FilePair → Except Unit (List FilePair)
  | [] => .ok []
  | p :: rest =>
    match ev p with
    | .error e => .error e
    | .ok r =>
      match poolMatches ev rest with
      | .error e => .error e
      | .ok l => .ok (if pyTruthyOpt r.2 then r.1 :: l else l)

/-- Path lookup in a stable filesystem snapshot. -/
def lookupFS (fs : List (Bytes × Bytes)) (p : Bytes) : Option Bytes :=
  match fs with
  | [] => none
  | (q, c) :: rest => if q = p then some c else lookupFS rest p

/-- `os.stat(...).st_size` as memoized by `_File.__init__` over a snapshot
(all candidates in the working set exist at construction time). -/
def sizeFS (fs : List (Bytes × Bytes)) (p : Bytes) : Nat :=
  ((lookupFS fs p).getD []).length

/-- `_eq` on a pair of paths over one stable snapshot (each file is present
both at `os.stat` time and at read time, so stat sizes agree with contents). -/
def evFS (H Hhex : Bytes → Nat) (fs : List (Bytes × Bytes)) (pr : FilePair) :
    Except Unit (FilePair × Option Bool) :=
  match runEq H Hhex (sizeFS fs pr.1) (sizeFS fs pr.2) (lookupFS fs pr.1) (lookupFS fs pr.2) with
  | .ok ob => .ok (pr, ob)
  | .error e => .error e

/-- `_pairs(files)`: `itertools.combinations(files, 2)`. -/
def pairsComb : List Bytes → List FilePair
  | [] => []
  | x :: xs => xs.map (fun y => (x, y)) ++ pairsComb xs

/-- `os.path.basename` on byte paths: the suffix after the last slash. -/
def basename (p : Bytes) : Bytes := (p.reverse.takeWhile (fun b => b ≠ 47)).reverse

/-- `_filter(pairs, name_match)`: drop a pair only when name matching is on
and the two basenames differ. -/
def filterPairs (nameMatch : Bool) (ps : List FilePair) : List FilePair :=
  ps.filter (fun pr => !nameMatch || basename pr.1 == basename pr.2)

/-- `_unlink_if_prefix_partial(delete_prefix, delete, left, right)`: when
`left` starts with the designated path head `pfx` and `right` does not,
report `left` (write it to stdout) and, only if deletion is enabled, unlink
it; the call then returns `True`.  Otherwise it falls through, returning
`None` (falsy).  Result: `(returned-truthy, reported paths, unlinked paths)`. -/
def unlinkOneSide (pfx : Bytes) (del : Bool) (left right : Bytes) :
    Bool × List Bytes × List Bytes :=
  if pfx <+: left ∧ ¬ pfx <+: right then
    (true, [left], if del then [left] else [])
  else (false, [], [])

/-- `_unlink_if_prefix(delete_prefix, delete, match)`: try the left side
first and, only if that call returned falsy (`or` short-circuits), try the
mirrored right side.  Result: `(reported paths, unlinked paths)` accumulated
for the pair. -/
def unlinkPair (pfx : Bytes) (del : Bool) (m : FilePair) :
    List Bytes × List Bytes :=
  let r1 := unlinkOneSide pfx del m.1 m.2
  if r1.1 then (r1.2.1, r1.2.2)
  else
    let r2 := unlinkOneSide pfx del m.2 m.1
    (r1.2.1 ++ r2.2.1, r1.2.2 ++ r2.2.2)

/-- One insertion into the Python set built by `set(files_all)` in `main`:
the new candidate collapses into the set exactly when some member has an
equal `__hash__` (`self.file.__hash__()`, abstracted as `ph` on the path) and
then compares equal under `_File.__eq__` (`eqv`). -/
def pySetInsert (eqv : Bytes → Bytes → Bool) (ph : Bytes → Nat)
    (s : List Bytes) (p : Bytes) : List Bytes :=
  if s.any (fun q => ph q == ph p && eqv q p) then s else s ++ [p]

/-- `set(files_all)` in `main`, keeping first occurrences. -/
def pySet (eqv : Bytes → Bytes → Bool) (ph : Bytes → Nat)
    (paths : List Bytes) : List Bytes :=
  paths.foldl (pySetInsert eqv ph) []

/-- `_File.__eq__` as the Boolean relation invoked by the set construction,
over one stable snapshot.  Under the hypotheses of the de-duplication theorem
below every involved file exists and stat sizes agree with contents, so
`eqFile` never reaches an error outcome there (an escaping exception would
crash `main`); error outcomes are mapped to `false`. -/
def fileEqv (H Hhex : Bytes → Nat) (fs : List (Bytes × Bytes))
    (q p : Bytes) : Bool :=
  match eqFile H Hhex (sizeFS fs q) (sizeFS fs p) (lookupFS fs q) (lookupFS fs p) with
  | .ok true => true
  | _ => false

/-- Spec-side description of candidate identity, for comparison with the
code's set construction: de-duplication keyed on the raw path string alone,
keeping first occurrences. -/
def dedupByPath (paths : List Bytes) : List Bytes :=
  paths.foldl (fun s p => if p ∈ s then s else s ++ [p]) []

/-- A concrete instantiation of the abstract digest function, used by the
concrete evaluations below: the first byte of the stream (default `0`). -/
def hashHead (l : Bytes) : Nat := l.headD 0

/-- Concrete snapshot for the dispatcher evaluations: path `[1]` holds one
byte, path `[2]` holds two bytes, so the pair compares not-equal already at
the size stage. -/
def fsTwo : List (Bytes × Bytes) := [([1], [0]), ([2], [0, 0])]

/-- `_eq` on a pair whose files were both statted at size 1 but whose
right-hand file was removed before the comparison could read it. -/
def evGone (pr : FilePair) : Except Unit (FilePair × Option Bool) :=
  match runEq hashHead hashHead 1 1 (some [0]) none with
  | .ok ob => .ok (pr, ob)
  | .error e => .error e

/-- Two full blocks of zero bytes (8192 bytes). -/
def cexA : Bytes := List.replicate 8192 0

/-- Same size as `cexA` but with different bytes, so the two files diverge
already in the first 4096-byte block. -/
def cexB : Bytes := List.replicate 8192 1

/-- The default stepping generator, started at `initial = 1`, yields the
constant value `1`: `initial *= initial` never grows past `1`. -/
theorem exponential_one (n : Nat) : exponential 1 n = 1 := by
  induction n with
  | zero => rfl
  | succ n ih => simp [exponential, ih]

theorem chunksOf_nil : chunksOf [] = [] := by
  rw [chunksOf]
  simp

theorem chunksOf_cons (c : Bytes) (h : c ≠ []) :
    chunksOf c = c.take 4096 :: chunksOf (c.drop 4096) := by
  rw [chunksOf]
  simp [h]

/-- With the default schedule the guard `iteration >= step` holds after every
block, so the loop emits one step per block, each carrying the constant step
value `1` and the running digest of the prefix consumed so far. -/
theorem stephashLoop_default (H : Bytes → Nat) (chunks : List Bytes) :
    ∀ acc it si, stephashLoop H (exponential 1) chunks acc it si =
      ((List.range chunks.length).map
        (fun k => (⟨1, H (acc ++ ((chunks.take (k + 1)).flatten)), 0, 0⟩ : Step)), 1) := by
  induction chunks with
  | nil =>
    intro acc it si
    simp [stephashLoop, exponential_one]
  | cons ch rest ih =>
    intro acc it si
    have h1 : it + 1 ≥ exponential 1 si := by rw [exponential_one]; omega
    simp only [stephashLoop, if_pos h1]
    rw [ih]
    simp [List.range_succ_eq_map, List.map_map, Function.comp, List.take_succ_cons,
      List.flatten_cons, List.append_assoc, exponential_one]

/-- Flattening the first `m` blocks recovers the first `4096 * m` bytes. -/
theorem flatten_take_chunksOf : ∀ (m : Nat) (c : Bytes),
    ((chunksOf c).take m).flatten = c.take (4096 * m) := by
  intro m
  induction m with
  | zero => intro c; simp
  | succ m ih =>
    intro c
    by_cases h : c = []
    · subst h; simp [chunksOf_nil]
    · rw [chunksOf_cons c h, List.take_succ_cons, List.flatten_cons, ih]
      have h4 : 4096 * (m + 1) = 4096 + 4096 * m := by ring
      rw [h4, List.take_add]

/-- Closed form of `_stephash` under the default schedule: one non-final
checkpoint after every block (the `k`-th carrying the digest of the first
`k + 1` blocks and the constant iteration value `1`), then the final
checkpoint with the whole-stream `hexdigest`. -/
theorem stephash_eq (H Hhex : Bytes → Nat) (c : Bytes) :
    stephash H Hhex c =
      ((List.range (numBlocks c)).map
        (fun k => (⟨1, H (c.take (4096 * (k + 1))), 0, 0⟩ : Step)))
        ++ [⟨1, Hhex c, 0, 1⟩] := by
  unfold stephash numBlocks
  rw [stephashLoop_default]
  simp [flatten_take_chunksOf]

theorem stephash_ne_nil (H Hhex : Bytes → Nat) (c : Bytes) :
    stephash H Hhex c ≠ [] := by
  simp [stephash]

/-- Running the lock-step loop on one checkpoint sequence against itself:
every assert passes, the whole sequence is consumed, and the loop ends
holding the last step of the sequence on both sides. -/
theorem eqLoop_self : ∀ l : List Step,
    eqLoop l l = l.getLast?.map (fun a => (a, a, l.length)) := by
  intro l
  induction l with
  | nil => rfl
  | cons a as ih =>
    cases as with
    | nil => simp [eqLoop]
    | cons b bs =>
      obtain ⟨g, hg⟩ := Option.isSome_iff_exists.mp
        ((List.getLast?_isSome).mpr (by simp : (b :: bs) ≠ ([] : List Step)))
      simp [eqLoop, ih, hg, List.getLast?_cons_cons]

/-- `_File.__eq__` on one candidate against itself over stable content always
returns `True` (for any memoized size). -/
theorem eqFile_refl (H Hhex : Bytes → Nat) (sz : Nat) (c : Bytes) :
    eqFile H Hhex sz sz (some c) (some c) = .ok true := by
  unfold eqFile
  obtain ⟨g, hg⟩ := Option.isSome_iff_exists.mp
    ((List.getLast?_isSome).mpr (stephash_ne_nil H Hhex c))
  simp [eqLoop_self, hg]

/-- Unfolding of `_File.__eq__` when both files are still readable. -/
theorem eqFile_some (H Hhex : Bytes → Nat) (szA szB : Nat) (a b : Bytes) :
    eqFile H Hhex szA szB (some a) (some b) =
      if szA ≠ szB then .ok false
      else
        match eqLoop (stephash H Hhex a) (stephash H Hhex b) with
        | none => .error .assertErr
        | some (la, lb, _) =>
          if la.digest ≠ lb.digest then .ok false
          else if Hhex a ≠ Hhex b then .ok false
          else .ok (decide (a = b)) := rfl

theorem headD_replicate (n x d : Nat) :
    (List.replicate n x).headD d = if n = 0 then d else x := by
  cases n <;> simp [List.replicate_succ]

/-- A non-empty file of at most one block is a single chunk. -/
theorem chunksOf_small (c : Bytes) (h1 : c ≠ []) (h2 : c.length ≤ 4096) :
    chunksOf c = [c] := by
  rw [chunksOf_cons c h1, List.take_of_length_le h2, List.drop_of_length_le h2, chunksOf_nil]

/-- Claim C10: for every file `f` with stable content, the comparator's
`equal(f, f)` — comparing a candidate against itself, reading the content
twice — returns true.  The memoized size is the content length on a stable
filesystem, both checkpoint traversals read the same bytes, and the final
`filecmp.cmp` byte compare succeeds. -/
theorem eq_reflexive_on_stable_content (H Hhex : Bytes → Nat) (c : Bytes) :
    eqFile H Hhex c.length c.length (some c) (some c) = .ok true :=
  eqFile_refl H Hhex c.length c

/-- Claim C8: under the default checkpoint schedule, the incremental hasher
emits exactly one checkpoint after every 4096-byte block consumed (the `k`-th
checkpoint carries the digest of the first `k + 1` blocks), so a file of
`numBlocks c` non-empty blocks yields that many non-final checkpoints
followed by the single final checkpoint with the whole-stream digest. -/
theorem default_schedule_checkpoints_every_block (H Hhex : Bytes → Nat) (c : Bytes) :
    stephash H Hhex c =
      ((List.range (numBlocks c)).map
        (fun k => (⟨1, H (c.take (4096 * (k + 1))), 0, 0⟩ : Step)))
        ++ [⟨1, Hhex c, 0, 1⟩] :=
  stephash_eq H Hhex c

/-- Claim C4: for every pair of files with stable content, `equal(a, b)`
returns true only if the two byte streams are identical: whatever the hash
functions do (collisions included), a size match plus matching digests is
never sufficient, because the byte-exact `filecmp.cmp` comparison is
performed last and is authoritative. -/
theorem eq_true_implies_identical_bytes (H Hhex : Bytes → Nat) (szA szB : Nat)
    (ca cb : Bytes)
    (h : eqFile H Hhex szA szB (some ca) (some cb) = .ok true) : ca = cb := by
  rw [eqFile_some] at h
  split at h
  · simp at h
  · split at h
    · simp at h
    · split at h
      · simp at h
      · split at h
        · simp at h
        · exact of_decide_eq_true (Except.ok.inj h)

/-- Witness for the claim C4 theorem at a concrete input: two one-byte files
with identical contents compare `.ok true`, and the theorem yields that the
contents coincide. -/
theorem eq_true_implies_identical_bytes_check :
    eqFile hashHead hashHead 1 1 (some [5]) (some ([5] : Bytes)) = .ok true ∧
      ([5] : Bytes) = [5] :=
  ⟨eqFile_refl hashHead hashHead 1 [5],
    eq_true_implies_identical_bytes hashHead hashHead 1 1 [5] [5]
      (eqFile_refl hashHead hashHead 1 [5])⟩

/-- Claim C5: for every confirmed pair and designated path head: if exactly
one side starts with it, that side and only that side is reported and (when
deletion is enabled) unlinked; if both or neither side starts with it,
nothing is reported or unlinked; in every case at most one unlink happens per
pair per invocation. -/
theorem deletion_policy_asymmetry (pfx : Bytes) (del : Bool) (a b : Bytes) :
    unlinkPair pfx del (a, b) =
      (if pfx <+: a ∧ ¬ pfx <+: b then ([a], if del then [a] else [])
       else if pfx <+: b ∧ ¬ pfx <+: a then ([b], if del then [b] else [])
       else ([], [])) ∧
    (unlinkPair pfx del (a, b)).2.length ≤ 1 := by
  have hc : unlinkPair pfx del (a, b) =
      (if pfx <+: a ∧ ¬ pfx <+: b then ([a], if del then [a] else [])
       else if pfx <+: b ∧ ¬ pfx <+: a then ([b], if del then [b] else [])
       else ([], [])) := by
    unfold unlinkPair unlinkOneSide
    by_cases h1 : pfx <+: a ∧ ¬ pfx <+: b
    · simp [h1]
    · by_cases h2 : pfx <+: b ∧ ¬ pfx <+: a
      · simp [h1, h2]
      · simp [h1, h2]
  refine ⟨hc, ?_⟩
  rw [hc]
  split_ifs <;> cases del <;> simp

/-- `_File.__eq__` between two wrappers of the same existing path is `True`
(both wrappers statted the same file and read the same stable bytes). -/
theorem fileEqv_refl (H Hhex : Bytes → Nat) (fs : List (Bytes × Bytes)) (p : Bytes)
    (h : (lookupFS fs p).isSome = true) : fileEqv H Hhex fs p p = true := by
  obtain ⟨c, hc⟩ := Option.isSome_iff_exists.mp h
  unfold fileEqv
  rw [hc, eqFile_refl]

/-- The set construction of `main`, generalized over the running accumulator:
as long as the path hash does not collide across the involved paths and every
involved path exists in the snapshot, inserting collapses exactly on path
equality. -/
theorem pySet_foldl_eq (H Hhex : Bytes → Nat) (ph : Bytes → Nat)
    (fs : List (Bytes × Bytes)) :
    ∀ (paths acc : List Bytes),
      (∀ p ∈ acc ++ paths, (lookupFS fs p).isSome = true) →
      (∀ p ∈ acc ++ paths, ∀ q ∈ acc ++ paths, ph p = ph q → p = q) →
      List.foldl (pySetInsert (fileEqv H Hhex fs) ph) acc paths =
        List.foldl (fun s p => if p ∈ s then s else s ++ [p]) acc paths := by
  intro paths
  induction paths with
  | nil => intro acc _ _; rfl
  | cons p rest ih =>
    intro acc hex hinj
    rw [List.foldl_cons, List.foldl_cons]
    by_cases hmem : p ∈ acc
    · have hany : (acc.any fun q => ph q == ph p && fileEqv H Hhex fs q p) = true :=
        List.any_eq_true.mpr
          ⟨p, hmem, by
            simp [fileEqv_refl H Hhex fs p (hex p (by simp))]⟩
      rw [show pySetInsert (fileEqv H Hhex fs) ph acc p = acc from by
        unfold pySetInsert; rw [if_pos hany]]
      rw [if_pos hmem]
      refine ih acc (fun x hx => hex x ?_) (fun x hx y hy hxy => hinj x ?_ y ?_ hxy)
      · simp only [List.mem_append, List.mem_cons] at hx ⊢
        tauto
      · simp only [List.mem_append, List.mem_cons] at hx ⊢
        tauto
      · simp only [List.mem_append, List.mem_cons] at hy ⊢
        tauto
    · have hany : (acc.any fun q => ph q == ph p && fileEqv H Hhex fs q p) = false := by
        rw [List.any_eq_false]
        intro q hq
        by_cases hph : ph q = ph p
        · have hqp : q = p :=
            hinj q (by simp [List.mem_append, hq]) p (by simp) hph
          rw [hqp] at hq
          exact absurd hq hmem
        · simp [hph]
      rw [show pySetInsert (fileEqv H Hhex fs) ph acc p = acc ++ [p] from by
        unfold pySetInsert; rw [hany]; simp]
      rw [if_neg hmem]
      refine ih (acc ++ [p]) (fun x hx => hex x ?_) (fun x hx y hy hxy => hinj x ?_ y ?_ hxy)
      · simp only [List.mem_append, List.mem_cons, List.mem_singleton] at hx ⊢
        tauto
      · simp only [List.mem_append, List.mem_cons, List.mem_singleton] at hx ⊢
        tauto
      · simp only [List.mem_append, List.mem_cons, List.mem_singleton] at hy ⊢
        tauto

/-- Claim C9: candidate de-duplication uses the raw path string as identity,
not content.  Over a stable snapshot in which every supplied path exists and
the path hash (`hash(self.file)`, abstract here) does not collide between
distinct supplied paths, the Python set built in `main` collapses exactly
repeated path strings — so two identical path strings supplied twice leave
one candidate (`main` then logs its warning when the set is smaller than the
input), while two distinct paths whose files are byte-identical are both
kept. -/
theorem dedup_by_path_identity (H Hhex : Bytes → Nat) (ph : Bytes → Nat)
    (fs : List (Bytes × Bytes)) (paths : List Bytes)
    (hex : ∀ p ∈ paths, (lookupFS fs p).isSome = true)
    (hinj : ∀ p ∈ paths, ∀ q ∈ paths, ph p = ph q → p = q) :
    pySet (fileEqv H Hhex fs) ph paths = dedupByPath paths := by
  unfold pySet dedupByPath
  exact pySet_foldl_eq H Hhex ph fs paths [] (by simpa) (by simpa)

/-- Witness for the claim C9 theorem at a concrete input: paths `[1]`, `[1]`,
`[2]` over a snapshot where both files hold the same byte `7`.  The repeated
path string collapses, while the two distinct paths with byte-identical
contents both survive as candidates. -/
theorem dedup_by_path_identity_check :
    pySet (fileEqv hashHead hashHead [([1], [7]), ([2], [7])])
        (fun p => p.headD 0) [[1], [1], [2]] = [[1], [2]] := by
  have h := dedup_by_path_identity hashHead hashHead (fun p => p.headD 0)
    [([1], [7]), ([2], [7])] [[1], [1], [2]] (by decide) (by decide)
  rw [h]
  decide

/-- Claim C1 (refuted by evaluation): in sequential mode the dispatcher does
not emit only confirmed pairs.  Over the snapshot `fsTwo` the single pair
compares `.ok (pair, some false)` — the comparison returned `False` — yet the
sequential branch of `_matches` still yields the pair, because
`if not _eq(pair)` tests the truthiness of the returned 2-tuple, which is
always truthy. -/
theorem seq_dispatch_emits_unequal_pair :
    evFS hashHead hashHead fsTwo ([1], [2]) =
        .ok (((([1] : Bytes), ([2] : Bytes)) : FilePair), some false) ∧
      seqMatches (evFS hashHead hashHead fsTwo) [([1], [2])] = .ok [([1], [2])] :=
  ⟨rfl, rfl⟩

/-- Claim C3 (refuted by evaluation): the sequential output set and the
worker-pool output set over the same input differ.  On the single unequal
pair of `fsTwo`, sequential mode emits the pair (dispatcher truthiness slip)
while the pool branch, which correctly tests `result[1]`, emits nothing. -/
theorem seq_pool_output_sets_differ :
    seqMatches (evFS hashHead hashHead fsTwo) [([1], [2])] = .ok [([1], [2])] ∧
      poolMatches (evFS hashHead hashHead fsTwo) [([1], [2])] = .ok [] ∧
      ([([1], [2])] : List FilePair) ≠ [] :=
  ⟨rfl, rfl, by decide⟩

/-- Claim C6 (refuted in sequential mode): when a file vanishes between
`os.stat` and the comparison read, `_eq` does catch the `FileNotFoundError`
and reports `None` (undetermined) without aborting the run, and the
worker-pool branch indeed drops the pair — but the sequential branch still
emits it, because of the same tuple-truthiness slip. -/
theorem undetermined_pair_still_emitted :
    runEq hashHead hashHead 1 1 (some [0]) none = .ok none ∧
      seqMatches evGone [([1], [2])] = .ok [([1], [2])] ∧
      poolMatches evGone [([1], [2])] = .ok [] :=
  ⟨rfl, rfl, rfl⟩

/-- Claim C7 (refuted by evaluation): the checkpoint records of a one-byte
file carry the iteration values `[1, 1]` — the degenerate step value of the
default schedule, not a strictly increasing sequence — although the last
record is indeed flagged final and carries the whole-stream digest. -/
theorem checkpoint_iterations_not_increasing :
    (stephash hashHead hashHead [5]).map Step.iteration = [1, 1] ∧
      ¬ List.Chain' (fun x y => x < y)
        ((stephash hashHead hashHead [5]).map Step.iteration) ∧
      (stephash hashHead hashHead [5]).getLast? = some ⟨1, hashHead [5], 0, 1⟩ := by
  have hch : chunksOf ([5] : Bytes) = [[5]] := chunksOf_small [5] (by simp) (by norm_num)
  have hnb : numBlocks ([5] : Bytes) = 1 := by rw [numBlocks, hch]; rfl
  have hs : stephash hashHead hashHead [5] = [⟨1, 5, 0, 0⟩, ⟨1, 5, 0, 1⟩] := by
    rw [stephash_eq, hnb]
    norm_num [List.range_succ]
    simp [hashHead]
  rw [hs]
  refine ⟨rfl, by simp [List.chain'_cons], rfl⟩

/-- Claim C2 (refuted by evaluation): two same-size 8192-byte files whose
first 4096-byte blocks already differ.  The first checkpoints' digests
already mismatch (`0` versus `1`), yet the lock-step loop of `__eq__`
consumes all `3` checkpoints of each sequence — it performs no per-round
digest comparison — and the not-equal verdict arises only from the final
digest comparison after the loop. -/
theorem comparator_consumes_all_checkpoints :
    (stephash hashHead hashHead cexA).head?.map Step.digest = some 0 ∧
      (stephash hashHead hashHead cexB).head?.map Step.digest = some 1 ∧
      eqLoop (stephash hashHead hashHead cexA) (stephash hashHead hashHead cexB) =
        some (⟨1, 0, 0, 1⟩, ⟨1, 1, 0, 1⟩, 3) ∧
      eqFile hashHead hashHead 8192 8192 (some cexA) (some cexB) = .ok false := by
  have hrep4 : ∀ x : Nat, List.replicate 4096 x ≠ [] := by
    intro x
    rw [Ne, List.replicate_eq_nil_iff]
    norm_num
  have hrep8 : ∀ x : Nat, List.replicate 8192 x ≠ [] := by
    intro x
    rw [Ne, List.replicate_eq_nil_iff]
    norm_num
  have hch : ∀ x : Nat,
      chunksOf (List.replicate 8192 x) = [List.replicate 4096 x, List.replicate 4096 x] := by
    intro x
    rw [chunksOf_cons _ (hrep8 x), List.take_replicate, List.drop_replicate,
      show (4096 ⊓ 8192 : Nat) = 4096 from by omega,
      show (8192 - 4096 : Nat) = 4096 from by omega,
      chunksOf_small _ (hrep4 x) (le_of_eq (List.length_replicate 4096 x))]
  have hhtake : ∀ (x m : Nat), 0 < m →
      hashHead ((List.replicate 8192 x).take m) = x := by
    intro x m hm
    rw [List.take_replicate]
    unfold hashHead
    rw [headD_replicate, if_neg (by omega)]
  have hhall : ∀ x : Nat, hashHead (List.replicate 8192 x) = x := by
    intro x
    unfold hashHead
    rw [headD_replicate, if_neg (by omega)]
  have hstep : ∀ x : Nat, stephash hashHead hashHead (List.replicate 8192 x) =
      [⟨1, x, 0, 0⟩, ⟨1, x, 0, 0⟩, ⟨1, x, 0, 1⟩] := by
    intro x
    rw [stephash_eq, show numBlocks (List.replicate 8192 x) = 2 from by
      rw [numBlocks, hch x]; rfl]
    simp only [List.range_succ, List.range_zero, List.nil_append, List.map_append,
      List.map_cons, List.map_nil, List.cons_append, List.append_nil]
    rw [hhtake x (4096 * (0 + 1)) (by norm_num), hhtake x (4096 * (1 + 1)) (by norm_num),
      hhall x]
  have hsA : stephash hashHead hashHead cexA = [⟨1, 0, 0, 0⟩, ⟨1, 0, 0, 0⟩, ⟨1, 0, 0, 1⟩] := by
    unfold cexA
    exact hstep 0
  have hsB : stephash hashHead hashHead cexB = [⟨1, 1, 0, 0⟩, ⟨1, 1, 0, 0⟩, ⟨1, 1, 0, 1⟩] := by
    unfold cexB
    exact hstep 1
  refine ⟨?_, ?_, ?_, ?_⟩
  · rw [hsA]; rfl
  · rw [hsB]; rfl
  · rw [hsA, hsB]; rfl
  · rw [eqFile_some, if_neg (by norm_num), hsA, hsB]; rfl

end MatchSpec
